import Mathlib

/-!
Verification of the resilience / data-quality middleware pipeline of the
yahoo-finance-mcp server.  The repository ships the security utilities
(`src/utils/security.ts`, `SecurityMiddleware`) as source; the middleware
components (circuit breaker, token bucket, retry, cache, quality scoring,
fallback) are documented in `docs/ARCHITECTURE.md` and the specification,
so those are modelled from the spec's words.
-/

namespace YF

/-! ## Circuit breaker (spec-modelled) -/

/-- Modelled from the spec: the three breaker states of §4.3
(`src/middleware/circuit-breaker.ts` is not in the repository files). -/
inductive CBPhase
  | closed
  | opened
  | halfOpen
deriving DecidableEq, Repr

/-- Modelled from the spec: the circuit breaker configuration (§6). -/
structure CBConfig where
  failureThreshold : Nat
  successThreshold : Nat
  resetTimeoutMs : Nat
  monitoringWindow : Nat
deriving DecidableEq, Repr

/-- Modelled from the spec: `CircuitBreakerState` of §3, with `openedAt`
nullable exactly as the data model states. -/
structure CBState where
  phase : CBPhase
  failureCount : Nat
  successCount : Nat
  windowStartedAt : Nat
  openedAt : Option Nat
deriving DecidableEq, Repr

/-- The typed error taxonomy of §7. -/
inductive PErr
  | rateLimitExceeded
  | circuitOpenError
  | timeoutError
  | upstreamError (attempts : Nat)
  | dataQualityError
deriving DecidableEq, Repr

/-- Modelled from the spec: admission check of the breaker.  In `Open`, once
`now − openedAt ≥ resetTimeoutMs` the breaker moves to `Half-Open` and the
call is dispatched; before that every call is rejected.  `Closed` and
`Half-Open` admit the call unchanged. -/
def cbAdmit (cfg : CBConfig) (s : CBState) (now : Nat) : CBState × Bool :=
  match s.phase, s.openedAt with
  | CBPhase.opened, some t =>
      if cfg.resetTimeoutMs ≤ now - t then
        ({ s with phase := CBPhase.halfOpen, failureCount := 0, successCount := 0,
                  openedAt := none }, true)
      else (s, false)
  | CBPhase.opened, none => (s, false)
  | _, _ => (s, true)

/-- Modelled from the spec: recording a successful dispatched call.  `Closed`
resets `failureCount`; `Half-Open` increments `successCount` and closes the
breaker once `successCount ≥ successThreshold`. -/
def cbOnSuccess (cfg : CBConfig) (s : CBState) : CBState :=
  match s.phase with
  | CBPhase.closed => { s with failureCount := 0 }
  | CBPhase.halfOpen =>
      if cfg.successThreshold ≤ s.successCount + 1 then
        { s with phase := CBPhase.closed, failureCount := 0, successCount := 0 }
      else { s with successCount := s.successCount + 1 }
  | CBPhase.opened => s

/-- Modelled from the spec: recording a failed dispatched call.  In `Closed`,
if `now − windowStartedAt > monitoringWindow` the failure count is reset to 0
and the window restarted before the new failure is counted; reaching
`failureThreshold` opens the breaker.  Any failure in `Half-Open` reverts to
`Open` and resets the counters. -/
def cbOnFailure (cfg : CBConfig) (s : CBState) (now : Nat) : CBState :=
  match s.phase with
  | CBPhase.closed =>
      let fc := if cfg.monitoringWindow < now - s.windowStartedAt then 0 else s.failureCount
      let ws := if cfg.monitoringWindow < now - s.windowStartedAt then now else s.windowStartedAt
      if cfg.failureThreshold ≤ fc + 1 then
        { s with phase := CBPhase.opened, failureCount := fc + 1, windowStartedAt := ws,
                 openedAt := some now }
      else { s with failureCount := fc + 1, windowStartedAt := ws }
  | CBPhase.halfOpen =>
      { s with phase := CBPhase.opened, failureCount := 0, successCount := 0,
               openedAt := some now }
  | CBPhase.opened => s

/-- Result of one guarded call through the breaker: whether the upstream
fetch was dispatched, the error (if rejected), and the next breaker state. -/
structure CBCallResult where
  invoked : Bool
  err : Option PErr
  next : CBState
deriving DecidableEq, Repr

/-- Modelled from the spec: one call through the breaker.  `outcome` is what
the upstream fetch would report if it were dispatched. -/
def cbCall (cfg : CBConfig) (s : CBState) (now : Nat) (outcome : Bool) : CBCallResult :=
  let a := cbAdmit cfg s now
  if a.2 then
    if outcome then ⟨true, none, cbOnSuccess cfg a.1⟩
    else ⟨true, none, cbOnFailure cfg a.1 now⟩
  else ⟨false, some PErr.circuitOpenError, a.1⟩

/-! ## Token bucket (spec-modelled) -/

/-- Modelled from the spec: `TokenBucketState` of §3
(`src/middleware/rate-limiter.ts` is not in the repository files). -/
structure Bucket where
  tokens : ℚ
  maxTokens : ℚ
  refillRatePerMs : ℚ
  lastRefillAt : ℚ
deriving DecidableEq, Repr

/-- Modelled from the spec: lazy continuous refill computed at call time,
`tokens = min(maxTokens, tokens + elapsedMs * refillRatePerMs)` (§4.1). -/
def refill (b : Bucket) (now : ℚ) : Bucket :=
  ⟨min b.maxTokens (b.tokens + (now - b.lastRefillAt) * b.refillRatePerMs),
   b.maxTokens, b.refillRatePerMs, now⟩

/-- Modelled from the spec: `tryAcquire` refills, tests `tokens ≥ 1`, and on
a grant decrements by 1 (§4.1). -/
def tryAcquire (b : Bucket) (now : ℚ) : Bucket × Bool :=
  if 1 ≤ (refill b now).tokens then
    (⟨(refill b now).tokens - 1, b.maxTokens, b.refillRatePerMs, now⟩, true)
  else (refill b now, false)

/-- The grant/denial outcomes of a sequence of acquisitions at the given
timestamps, threaded through one bucket. -/
def grantsSeq (b : Bucket) : List ℚ → List Bool
  | [] => []
  | t :: ts => (tryAcquire b t).2 :: grantsSeq (tryAcquire b t).1 ts

/-! ## Retry backoff (spec-modelled) -/

/-- Modelled from the spec: the backoff delay before 1-indexed attempt `n`
with jitter draw `r`, `min(baseDelay * 2^(n-1) * (1 + r), maxDelay)` (§4.4);
`src/middleware/retry.ts` is not in the repository files. -/
def retryDelay (baseDelay maxDelay : ℚ) (n : ℕ) (r : ℚ) : ℚ :=
  min (baseDelay * 2 ^ (n - 1) * (1 + r)) maxDelay

/-! ## Cache layer with LRU eviction (spec-modelled) -/

/-- Modelled from the spec: `CacheEntry` of §3 with an opaque payload
(`src/middleware/cache.ts` is not in the repository files); keys are numbers
standing for cache-key strings. -/
structure CEntry where
  key : Nat
  value : Nat
  insertedAt : Nat
  expiresAt : Nat
  lastAccessedAt : Nat
deriving DecidableEq, Repr

/-- Of two entries, the one accessed longer ago (the first on ties). -/
def olderOf (a c : CEntry) : CEntry :=
  if c.lastAccessedAt < a.lastAccessedAt then c else a

/-- The LRU victim: the stored entry with the oldest `lastAccessedAt`. -/
def lruVictim : List CEntry → Option CEntry
  | [] => none
  | e :: rest => some (rest.foldl olderOf e)

/-- Modelled from the spec: `set` replaces an existing key in place; a write
that would exceed `maxCacheSize` evicts the LRU victim before inserting
(§4.5). -/
def cacheSet (maxSize : Nat) (c : List CEntry) (e : CEntry) : List CEntry :=
  if c.any (fun f => f.key == e.key) then
    c.map (fun f => if f.key == e.key then e else f)
  else if maxSize ≤ c.length then
    match lruVictim c with
    | some v => (c.filter (fun f => f.key != v.key)) ++ [e]
    | none => c ++ [e]
  else c ++ [e]

/-! ## Data quality scoring (spec-modelled) -/

/-- Modelled from the spec: the three field classes of the completeness
partition (§4.6); `src/utils/data-quality.ts` is not in the repository
files. -/
inductive FieldClass
  | critical
  | important
  | standard
deriving DecidableEq, Repr

/-- Modelled from the spec: weights 2.0 / 1.5 / 1.0 (§4.6). -/
def fieldWeight : FieldClass → ℚ
  | FieldClass.critical => 2
  | FieldClass.important => 3 / 2
  | FieldClass.standard => 1

/-- Total weight of all expected fields; a field is a class paired with its
presence flag. -/
def totalWeight (fs : List (FieldClass × Bool)) : ℚ :=
  (fs.map (fun p => fieldWeight p.1)).sum

/-- Weight of the present fields. -/
def presentWeight (fs : List (FieldClass × Bool)) : ℚ :=
  ((fs.filter (fun p => p.2)).map (fun p => fieldWeight p.1)).sum

/-- Modelled from the spec: completeness score — present over total weight
times 100, rounded to nearest integer, clamped to `[0, 100]` (§4.6). -/
def completenessScore (fs : List (FieldClass × Bool)) : ℤ :=
  max 0 (min 100 (round (presentWeight fs / totalWeight fs * 100)))

/-- Number of expected fields missing from the payload. -/
def missingCount (fs : List (FieldClass × Bool)) : ℕ :=
  (fs.filter (fun p => !p.2)).length

/-- Modelled from the spec: source reliability classes (§4.6). -/
inductive Reliability
  | high
  | medium
  | low
deriving DecidableEq, Repr

/-- Modelled from the spec: `High` if score ≥ 90 and no high-severity issue,
`Medium` if score ≥ 70, at most 2 missing fields and no high-severity issue,
otherwise `Low` (§4.6). -/
def classifySource (score : ℤ) (missing : ℕ) (highIssue : Bool) : Reliability :=
  if 90 ≤ score ∧ highIssue = false then Reliability.high
  else if 70 ≤ score ∧ missing ≤ 2 ∧ highIssue = false then Reliability.medium
  else Reliability.low

/-- The payload of the claim: one critical field missing, fields of weights
1.5, 1.0 and 1.0 present, total weight 5.5. -/
def exampleFields : List (FieldClass × Bool) :=
  [(FieldClass.critical, false), (FieldClass.important, true),
   (FieldClass.standard, true), (FieldClass.standard, true)]

/-! ## Fallback policy (spec-modelled) -/

/-- Modelled from the spec: when the upstream fetch fails (or the circuit is
open), if fallback is enabled and a cache entry exists for the key — even an
expired one — serve it annotated stale; otherwise the typed error propagates
unchanged (§4.5, §7). -/
def applyFallback (fallbackEnabled : Bool) (cached : Option CEntry) (e : PErr) :
    Except PErr (CEntry × Bool) :=
  match fallbackEnabled, cached with
  | true, some entry => Except.ok (entry, true)
  | _, _ => Except.error e

/-- Modelled from the spec: the post-fetch stage of a pipeline request — a
successful fetch returns fresh (non-stale) data, a failure goes through the
fallback policy (§4.7 step 5). -/
def pipelineOutcome (fallbackEnabled : Bool) (cached : Option CEntry)
    (fetched : Except PErr CEntry) : Except PErr (CEntry × Bool) :=
  match fetched with
  | Except.ok v => Except.ok (v, false)
  | Except.error e => applyFallback fallbackEnabled cached e

/-! ## Input validation (`src/utils/security.ts`) -/

/-- The characters accepted by `ALLOWED_SYMBOL_CHARS = /^[A-Z0-9.\-^]+$/`. -/
def validSymbolChar (c : Char) : Bool :=
  (decide ('A' ≤ c) && decide (c ≤ 'Z')) ||
  (decide ('0' ≤ c) && decide (c ≤ '9')) ||
  c == '.' || c == '-' || c == '^'

/-- The `SecurityError` codes thrown by `InputValidator.validateSymbol` and
`validateSymbols`. -/
inductive SecCode
  | invalidLength
  | invalidChars
  | emptyArray
  | tooManySymbols
  | duplicateSymbols
deriving DecidableEq, Repr

/-- `InputValidator.validateSymbol`: length must be in
`MIN_SYMBOL_LENGTH..MAX_SYMBOL_LENGTH = 1..20`, then every character must
match the whitelist; a JS string is modelled as its character list. -/
def validateSymbol (s : List Char) : Option SecCode :=
  if decide (s.length < 1) || decide (20 < s.length) then some SecCode.invalidLength
  else if !(!s.isEmpty && s.all validSymbolChar) then some SecCode.invalidChars
  else none

/-- `InputValidator.validateSymbols`: non-empty, at most
`MAX_SYMBOLS_PER_REQUEST = 50` entries, no duplicates (the `Set`-size test),
then each symbol validated in order. -/
def validateSymbols (ss : List (List Char)) : Option SecCode :=
  if ss.isEmpty then some SecCode.emptyArray
  else if decide (50 < ss.length) then some SecCode.tooManySymbols
  else if !(decide ss.Nodup) then some SecCode.duplicateSymbols
  else ss.findSome? validateSymbol

/-! ## SecurityMiddleware rate limiting (`SecurityMiddleware.checkRateLimit`) -/

/-- One identifier's entry of the middleware's `requestCounts` map. -/
structure RLRecord where
  count : Nat
  resetTime : Nat
deriving DecidableEq, Repr

/-- `SecurityMiddleware.checkRateLimit` for a fixed identifier: a missing or
expired record (`now > resetTime`) restarts the window at count 1 and grants;
a saturated count (`count ≥ maxRequests`) denies; otherwise the count
increments and the call is granted. -/
def checkRateLimit (rec : Option RLRecord) (now maxRequests windowMs : Nat) :
    Option RLRecord × Bool :=
  match rec with
  | none => (some ⟨1, now + windowMs⟩, true)
  | some r =>
      if r.resetTime < now then (some ⟨1, now + windowMs⟩, true)
      else if maxRequests ≤ r.count then (some r, false)
      else (some ⟨r.count + 1, r.resetTime⟩, true)

/-- The stored count of an optional record (0 when absent). -/
def rlCount : Option RLRecord → Nat
  | none => 0
  | some r => r.count

/-- Repeated `checkRateLimit` calls at the given times; returns the final
record and how many calls were granted. -/
def runRateLimit (maxRequests windowMs : Nat) :
    Option RLRecord → List Nat → Option RLRecord × Nat
  | rec, [] => (rec, 0)
  | rec, t :: ts =>
      let step := checkRateLimit rec t maxRequests windowMs
      let rest := runRateLimit maxRequests windowMs step.1 ts
      (rest.1, (if step.2 then 1 else 0) + rest.2)

/-! ## String sanitisation (`InputValidator.sanitizeString`) -/

/-- The characters removed by the first replace, `/[<>]/g`. -/
def isAngle (c : Char) : Bool := c == '<' || c == '>'

/-- The characters removed by the second replace, `/[\x00-\x1F\x7F]/g`. -/
def isCtrl (c : Char) : Bool := decide (c.toNat ≤ 0x1F) || decide (c.toNat = 0x7F)

/-- JavaScript's `trim` whitespace: tab through carriage return, space, NBSP,
Ogham space, the Unicode space separators, line/paragraph separators, narrow
and medium spaces, ideographic space, and the byte-order mark. -/
def isJsWs (c : Char) : Bool :=
  decide (0x09 ≤ c.toNat ∧ c.toNat ≤ 0x0D) || decide (c.toNat = 0x20) ||
  decide (c.toNat = 0xA0) || decide (c.toNat = 0x1680) ||
  decide (0x2000 ≤ c.toNat ∧ c.toNat ≤ 0x200A) ||
  decide (c.toNat = 0x2028) || decide (c.toNat = 0x2029) ||
  decide (c.toNat = 0x202F) || decide (c.toNat = 0x205F) ||
  decide (c.toNat = 0x3000) || decide (c.toNat = 0xFEFF)

/-- `trim` on a character list: strip leading and trailing whitespace. -/
def trimChars (l : List Char) : List Char :=
  ((l.dropWhile isJsWs).reverse.dropWhile isJsWs).reverse

/-- `InputValidator.sanitizeString` on a character list: remove `<` and `>`,
remove the control characters, then trim. -/
def sanitizeChars (l : List Char) : List Char :=
  trimChars ((l.filter (fun c => !isAngle c)).filter (fun c => !isCtrl c))

/-- `InputValidator.sanitizeString`. -/
def sanitizeString (s : String) : String := String.mk (sanitizeChars s.data)

/-! ## Properties -/

/-- In `Open`, before the reset timeout, admission rejects and leaves the
state untouched. -/
lemma cbAdmit_open_early (cfg : CBConfig) (s : CBState) (now t : Nat)
    (hphase : s.phase = CBPhase.opened) (hop : s.openedAt = some t)
    (helapsed : now - t < cfg.resetTimeoutMs) :
    cbAdmit cfg s now = (s, false) := by
  unfold cbAdmit
  rw [hphase, hop]
  simp [Nat.not_le.mpr helapsed]

/-- Admission changes the phase exactly when the breaker is `Open` with an
elapsed reset timeout, and then the new phase is `Half-Open`. -/
lemma cbAdmit_phase_change (cfg : CBConfig) (s : CBState) (now : Nat) :
    ((cbAdmit cfg s now).1.phase ≠ s.phase ↔
      (s.phase = CBPhase.opened ∧ ∃ t, s.openedAt = some t ∧ cfg.resetTimeoutMs ≤ now - t)) ∧
    ((cbAdmit cfg s now).1.phase ≠ s.phase → (cbAdmit cfg s now).1.phase = CBPhase.halfOpen) := by
  unfold cbAdmit
  rcases hp : s.phase <;> rcases ho : s.openedAt with _ | t <;>
    simp [hp, ho] <;> split <;> simp_all

/-- Recording a success changes the phase exactly when the breaker is
`Half-Open` and the success threshold is reached, and then it closes. -/
lemma cbOnSuccess_phase_change (cfg : CBConfig) (s : CBState) :
    ((cbOnSuccess cfg s).phase ≠ s.phase ↔
      (s.phase = CBPhase.halfOpen ∧ cfg.successThreshold ≤ s.successCount + 1)) ∧
    ((cbOnSuccess cfg s).phase ≠ s.phase → (cbOnSuccess cfg s).phase = CBPhase.closed) := by
  unfold cbOnSuccess
  rcases hp : s.phase <;> simp [hp] <;> split <;> simp_all

/-- Recording a failure in `Closed`: the window is restarted (count reset)
before the failure is evaluated, and the breaker opens exactly when the
effective count reaches the failure threshold. -/
lemma cbOnFailure_closed (cfg : CBConfig) (s : CBState) (now : Nat)
    (hp : s.phase = CBPhase.closed) :
    ((cbOnFailure cfg s now).phase = CBPhase.opened ↔
      cfg.failureThreshold ≤
        (if cfg.monitoringWindow < now - s.windowStartedAt then 0 else s.failureCount) + 1) ∧
    ((cbOnFailure cfg s now).phase = CBPhase.opened ∨
      (cbOnFailure cfg s now).phase = CBPhase.closed) ∧
    (cfg.monitoringWindow < now - s.windowStartedAt →
      (cbOnFailure cfg s now).failureCount = 1 ∧
      (cbOnFailure cfg s now).windowStartedAt = now) := by
  unfold cbOnFailure
  rw [hp]
  by_cases hw : cfg.monitoringWindow < now - s.windowStartedAt <;>
    simp [hw, hp] <;> split <;> simp_all

/-- C1: while the breaker for a resource key is `Open` and the reset timeout
has not yet elapsed, a call fails with `CircuitOpenError`, the upstream fetch
is never invoked, and the result does not depend on the would-be fetch
outcome. -/
theorem circuit_open_rejects_without_fetch (cfg : CBConfig) (s : CBState) (now t : Nat)
    (oc : Bool) (hphase : s.phase = CBPhase.opened) (hop : s.openedAt = some t)
    (helapsed : now - t < cfg.resetTimeoutMs) :
    (cbCall cfg s now oc).invoked = false ∧
    (cbCall cfg s now oc).err = some PErr.circuitOpenError ∧
    (cbCall cfg s now oc).next = s ∧
    ∀ oc' : Bool, cbCall cfg s now oc' = cbCall cfg s now oc := by
  have h : ∀ b : Bool, cbCall cfg s now b = ⟨false, some PErr.circuitOpenError, s⟩ := by
    intro b
    unfold cbCall
    rw [cbAdmit_open_early cfg s now t hphase hop helapsed]
    simp
  refine ⟨?_, ?_, ?_, ?_⟩ <;> simp [h]

theorem circuit_open_rejects_without_fetch_witness :
    (cbCall ⟨3, 2, 100, 1000⟩ ⟨CBPhase.opened, 3, 0, 0, some 50⟩ 60 true).invoked = false ∧
    (cbCall ⟨3, 2, 100, 1000⟩ ⟨CBPhase.opened, 3, 0, 0, some 50⟩ 60 true).err
      = some PErr.circuitOpenError ∧
    (cbCall ⟨3, 2, 100, 1000⟩ ⟨CBPhase.opened, 3, 0, 0, some 50⟩ 60 true).next
      = ⟨CBPhase.opened, 3, 0, 0, some 50⟩ ∧
    ∀ oc' : Bool, cbCall ⟨3, 2, 100, 1000⟩ ⟨CBPhase.opened, 3, 0, 0, some 50⟩ 60 oc'
      = cbCall ⟨3, 2, 100, 1000⟩ ⟨CBPhase.opened, 3, 0, 0, some 50⟩ 60 true :=
  circuit_open_rejects_without_fetch ⟨3, 2, 100, 1000⟩ ⟨CBPhase.opened, 3, 0, 0, some 50⟩
    60 50 true rfl rfl (by decide)

/-- C2: the breaker's primitive transitions are exactly the four listed ones.
Admission changes the phase only as `Open → Half-Open` once the reset timeout
elapsed; a success changes it only as `Half-Open → Closed` at the success
threshold; a failure in `Closed` opens exactly at the failure threshold after
the window-reset rule (count back to 0 and window restarted when
`now − windowStartedAt > monitoringWindow`, before the new failure is
counted); a failure in `Half-Open` always reverts to `Open`; and the
outcome-recording steps never touch an `Open` state. -/
theorem circuit_breaker_transition_exactness (cfg : CBConfig) (s : CBState) (now : Nat) :
    (((cbAdmit cfg s now).1.phase ≠ s.phase ↔
        (s.phase = CBPhase.opened ∧ ∃ t, s.openedAt = some t ∧ cfg.resetTimeoutMs ≤ now - t)) ∧
      ((cbAdmit cfg s now).1.phase ≠ s.phase →
        (cbAdmit cfg s now).1.phase = CBPhase.halfOpen)) ∧
    (((cbOnSuccess cfg s).phase ≠ s.phase ↔
        (s.phase = CBPhase.halfOpen ∧ cfg.successThreshold ≤ s.successCount + 1)) ∧
      ((cbOnSuccess cfg s).phase ≠ s.phase → (cbOnSuccess cfg s).phase = CBPhase.closed)) ∧
    (s.phase = CBPhase.closed →
      ((cbOnFailure cfg s now).phase = CBPhase.opened ↔
        cfg.failureThreshold ≤
          (if cfg.monitoringWindow < now - s.windowStartedAt then 0 else s.failureCount) + 1) ∧
      ((cbOnFailure cfg s now).phase = CBPhase.opened ∨
        (cbOnFailure cfg s now).phase = CBPhase.closed) ∧
      (cfg.monitoringWindow < now - s.windowStartedAt →
        (cbOnFailure cfg s now).failureCount = 1 ∧
        (cbOnFailure cfg s now).windowStartedAt = now)) ∧
    (s.phase = CBPhase.halfOpen → (cbOnFailure cfg s now).phase = CBPhase.opened) ∧
    (s.phase = CBPhase.opened → cbOnFailure cfg s now = s ∧ cbOnSuccess cfg s = s) := by
  refine ⟨cbAdmit_phase_change cfg s now, cbOnSuccess_phase_change cfg s, ?_, ?_, ?_⟩
  · exact cbOnFailure_closed cfg s now
  · intro hp
    unfold cbOnFailure
    rw [hp]
  · intro hp
    constructor
    · unfold cbOnFailure
      rw [hp]
    · unfold cbOnSuccess
      rw [hp]

/-- A bucket holding an integer count `k ≤ maxTokens` of tokens, hit by `m`
acquisitions at one instant, grants the first `min m k` and denies the rest. -/
lemma burst_grants (t0 : ℚ) : ∀ (m k : ℕ) (b : Bucket), b.tokens = (k : ℚ) →
    b.lastRefillAt = t0 → (k : ℚ) ≤ b.maxTokens →
    grantsSeq b (List.replicate m t0)
      = List.replicate (min m k) true ++ List.replicate (m - k) false := by
  intro m
  induction m with
  | zero => intro k b _ _ _; simp [grantsSeq]
  | succ m ih =>
      intro k b htok hlast hmax
      have hreftok : (refill b t0).tokens = (k : ℚ) := by
        show min b.maxTokens (b.tokens + (t0 - b.lastRefillAt) * b.refillRatePerMs) = (k : ℚ)
        rw [hlast, sub_self, zero_mul, add_zero, htok, min_eq_right hmax]
      cases k with
      | zero =>
          have hno : ¬ (1 : ℚ) ≤ (refill b t0).tokens := by
            rw [hreftok]; norm_num
          have hacq : tryAcquire b t0 = (refill b t0, false) := by
            unfold tryAcquire; rw [if_neg hno]
          rw [List.replicate_succ, grantsSeq, hacq]
          have hrec := ih 0 (refill b t0) (by exact_mod_cast hreftok)
            (by simp [refill]) (by simpa [refill] using hmax)
          simp [hrec, List.replicate_succ]
      | succ j =>
          have hyes : (1 : ℚ) ≤ (refill b t0).tokens := by
            rw [hreftok]; exact_mod_cast Nat.succ_le_succ (Nat.zero_le j)
          have hacq : tryAcquire b t0
              = (⟨(refill b t0).tokens - 1, b.maxTokens, b.refillRatePerMs, t0⟩, true) := by
            unfold tryAcquire; rw [if_pos hyes]
          have hb'tok : ((refill b t0).tokens - 1) = (j : ℚ) := by
            rw [hreftok]; push_cast; ring
          have hb'max : (j : ℚ) ≤ b.maxTokens := by
            refine le_trans ?_ hmax; exact_mod_cast Nat.le_succ j
          rw [List.replicate_succ, grantsSeq, hacq]
          have hrec := ih j ⟨(refill b t0).tokens - 1, b.maxTokens, b.refillRatePerMs, t0⟩
            hb'tok rfl hb'max
          rw [Nat.succ_min_succ, Nat.succ_sub_succ, List.replicate_succ]
          simpa using hrec

/-- If every pending refill at the next timestamp yields at least one token
and successive acquisitions are at least `1/rate` apart, every acquisition in
the sequence is granted. -/
lemma spaced_all_granted (rate maxT : ℚ) (hr : 0 < rate) (hm : 1 ≤ maxT) :
    ∀ (ts : List ℚ) (b : Bucket), b.refillRatePerMs = rate → b.maxTokens = maxT →
      List.Chain' (fun a c => a + 1 / rate ≤ c) ts →
      (∀ t, ts.head? = some t → 1 ≤ min maxT (b.tokens + (t - b.lastRefillAt) * rate)) →
      ∀ g ∈ grantsSeq b ts, g = true := by
  intro ts
  induction ts with
  | nil => intro b _ _ _ _ g hg; simp [grantsSeq] at hg
  | cons t ts ih =>
      intro b hrate hmaxT hchain hhead g hg
      have hreftok : (refill b t).tokens = min maxT (b.tokens + (t - b.lastRefillAt) * rate) := by
        simp [refill, hrate, hmaxT]
      have h1 : (1 : ℚ) ≤ (refill b t).tokens := by
        rw [hreftok]; exact hhead t rfl
      have hacq : tryAcquire b t
          = (⟨(refill b t).tokens - 1, b.maxTokens, b.refillRatePerMs, t⟩, true) := by
        unfold tryAcquire; rw [if_pos h1]
      rw [grantsSeq, hacq] at hg
      rcases List.mem_cons.mp hg with hg0 | hgrest
      · exact hg0
      · rcases List.chain'_cons'.mp hchain with ⟨hnext, htail⟩
        refine ih ⟨(refill b t).tokens - 1, b.maxTokens, b.refillRatePerMs, t⟩
          hrate hmaxT htail ?_ g hgrest
        intro t2 ht2
        have hgap : t + 1 / rate ≤ t2 := hnext t2 ht2
        have htoks0 : (0 : ℚ) ≤ (refill b t).tokens - 1 := by linarith
        have hmul : (1 : ℚ) ≤ (t2 - t) * rate := by
          have h1r : 1 / rate ≤ t2 - t := by linarith
          calc (1 : ℚ) = (1 / rate) * rate := by field_simp
            _ ≤ (t2 - t) * rate := by
                exact mul_le_mul_of_nonneg_right h1r (le_of_lt hr)
        refine le_min hm ?_
        calc (1 : ℚ) ≤ 0 + (t2 - t) * rate := by linarith
          _ ≤ ((refill b t).tokens - 1) + (t2 - t) * rate := by linarith

/-- C3: token bucket with lazy refill.  A full bucket of `n = maxTokens`
tokens hit by `n + 1` acquisitions at one instant grants exactly `n` and
denies exactly one; and from a full bucket, any sequence of acquisitions
spaced at least `1/refillRatePerMs` apart is granted throughout. -/
theorem token_bucket_burst_and_spacing (n : ℕ) (b : Bucket) (t0 : ℚ)
    (hfull : b.tokens = (n : ℚ)) (hmaxn : b.maxTokens = (n : ℚ)) (hlast : b.lastRefillAt = t0)
    (rate maxT : ℚ) (hr : 0 < rate) (hm : 1 ≤ maxT) :
    ((grantsSeq b (List.replicate (n + 1) t0)).count true = n ∧
     (grantsSeq b (List.replicate (n + 1) t0)).count false = 1) ∧
    (∀ (ts : List ℚ) (c : Bucket), c.refillRatePerMs = rate → c.maxTokens = maxT →
      c.tokens = maxT → List.Chain' (fun a d => a + 1 / rate ≤ d) ts →
      (∀ t, ts.head? = some t → c.lastRefillAt ≤ t) →
      ∀ g ∈ grantsSeq c ts, g = true) := by
  constructor
  · have hburst := burst_grants t0 (n + 1) n b hfull hlast (by simp [hmaxn])
    rw [Nat.min_eq_right (Nat.le_succ n), Nat.succ_sub (Nat.le_refl n), Nat.sub_self] at hburst
    rw [hburst]
    constructor <;> simp [List.count_append, List.count_replicate]
  · intro ts c hrate hmaxT htok hchain hhead g hg
    refine spaced_all_granted rate maxT hr hm ts c hrate hmaxT hchain ?_ g hg
    intro t ht
    have hge : c.lastRefillAt ≤ t := hhead t ht
    have hnn : (0 : ℚ) ≤ (t - c.lastRefillAt) * rate :=
      mul_nonneg (by linarith) (le_of_lt hr)
    refine le_min hm ?_
    rw [htok]
    linarith

theorem token_bucket_burst_and_spacing_witness :
    ((grantsSeq ⟨2, 2, 1, 0⟩ (List.replicate 3 0)).count true = 2 ∧
     (grantsSeq ⟨2, 2, 1, 0⟩ (List.replicate 3 0)).count false = 1) ∧
    (∀ (ts : List ℚ) (c : Bucket), c.refillRatePerMs = 1 → c.maxTokens = 2 →
      c.tokens = 2 → List.Chain' (fun a d => a + 1 / 1 ≤ d) ts →
      (∀ t, ts.head? = some t → c.lastRefillAt ≤ t) →
      ∀ g ∈ grantsSeq c ts, g = true) :=
  token_bucket_burst_and_spacing 2 ⟨2, 2, 1, 0⟩ 0 (by norm_num) (by norm_num)
    rfl 1 2 (by norm_num) (by norm_num)

/-- C4: with `baseDelay = 1000` and `jitterFactor = 0.1`, the attempt-2 delay
lies in `[2000, 2200]` ms for every jitter draw `r ∈ [0, 0.1]`, and no delay
of any attempt ever exceeds `maxDelay`. -/
theorem retry_backoff_bounds (maxDelay r : ℚ) (hr0 : 0 ≤ r) (hr1 : r ≤ 1 / 10)
    (hmd : 2200 ≤ maxDelay) :
    2000 ≤ retryDelay 1000 maxDelay 2 r ∧
    retryDelay 1000 maxDelay 2 r ≤ 2200 ∧
    ∀ (base : ℚ) (n : ℕ) (r' : ℚ), retryDelay base maxDelay n r' ≤ maxDelay := by
  have hval : (1000 : ℚ) * 2 ^ (2 - 1) * (1 + r) = 2000 + 2000 * r := by
    norm_num
    ring
  refine ⟨?_, ?_, ?_⟩
  · unfold retryDelay
    rw [hval]
    refine le_min (by linarith) (by linarith)
  · unfold retryDelay
    rw [hval]
    refine le_trans (min_le_left _ _) (by linarith)
  · intro base n r'
    exact min_le_right _ _

theorem retry_backoff_bounds_witness :
    2000 ≤ retryDelay 1000 10000 2 (1 / 20) ∧
    retryDelay 1000 10000 2 (1 / 20) ≤ 2200 ∧
    ∀ (base : ℚ) (n : ℕ) (r' : ℚ), retryDelay base 10000 n r' ≤ 10000 :=
  retry_backoff_bounds 10000 (1 / 20) (by norm_num) (by norm_num) (by norm_num)

/-- Folding `olderOf` keeps the accumulator or picks a list element. -/
lemma foldl_olderOf_mem (l : List CEntry) : ∀ a : CEntry,
    l.foldl olderOf a = a ∨ l.foldl olderOf a ∈ l := by
  induction l with
  | nil => intro a; left; rfl
  | cons x xs ih =>
      intro a
      simp only [List.foldl_cons, olderOf]
      by_cases h : x.lastAccessedAt < a.lastAccessedAt
      · rw [if_pos h]
        rcases ih x with h1 | h1
        · right; rw [h1]; exact List.mem_cons_self x xs
        · right; exact List.mem_cons_of_mem x h1
      · rw [if_neg h]
        rcases ih a with h1 | h1
        · left; exact h1
        · right; exact List.mem_cons_of_mem x h1

/-- Folding `olderOf` yields an access time at most the accumulator's and at
most every list element's. -/
lemma foldl_olderOf_min (l : List CEntry) : ∀ a : CEntry,
    (l.foldl olderOf a).lastAccessedAt ≤ a.lastAccessedAt ∧
    ∀ c ∈ l, (l.foldl olderOf a).lastAccessedAt ≤ c.lastAccessedAt := by
  induction l with
  | nil => intro a; exact ⟨le_refl _, by simp⟩
  | cons x xs ih =>
      intro a
      simp only [List.foldl_cons, olderOf]
      by_cases h : x.lastAccessedAt < a.lastAccessedAt
      · rw [if_pos h]
        rcases ih x with ⟨h1, h2⟩
        refine ⟨le_trans h1 (le_of_lt h), ?_⟩
        intro c hc
        rcases List.mem_cons.mp hc with rfl | hc
        · exact h1
        · exact h2 c hc
      · rw [if_neg h]
        rcases ih a with ⟨h1, h2⟩
        refine ⟨h1, ?_⟩
        intro c hc
        rcases List.mem_cons.mp hc with rfl | hc
        · exact le_trans h1 (Nat.le_of_not_lt h)
        · exact h2 c hc

/-- The LRU victim is a stored entry of minimal `lastAccessedAt`. -/
lemma lruVictim_spec (c : List CEntry) (v : CEntry) (h : lruVictim c = some v) :
    v ∈ c ∧ ∀ f ∈ c, v.lastAccessedAt ≤ f.lastAccessedAt := by
  cases c with
  | nil => simp [lruVictim] at h
  | cons e rest =>
      simp only [lruVictim, Option.some.injEq] at h
      subst h
      constructor
      · rcases foldl_olderOf_mem rest e with h1 | h1
        · rw [h1]; exact List.mem_cons_self e rest
        · exact List.mem_cons_of_mem e h1
      · intro f hf
        rcases List.mem_cons.mp hf with h1 | h1
        · rw [h1]; exact (foldl_olderOf_min rest e).1
        · exact (foldl_olderOf_min rest e).2 f h1

/-- When the stored keys are distinct, dropping a stored entry's key removes
exactly one entry. -/
lemma filter_ne_key_length (v : CEntry) : ∀ c : List CEntry,
    (c.map CEntry.key).Nodup → v ∈ c →
    (c.filter (fun f => f.key != v.key)).length = c.length - 1 := by
  intro c
  induction c with
  | nil => intro _ hv; simp at hv
  | cons x xs ih =>
      intro hnd hv
      have hnd' : x.key ∉ xs.map CEntry.key ∧ (xs.map CEntry.key).Nodup := by
        rw [List.map_cons, List.nodup_cons] at hnd
        exact hnd
      rcases List.mem_cons.mp hv with rfl | hv'
      · have hxs : xs.filter (fun f => f.key != v.key) = xs := by
          apply List.filter_eq_self.mpr
          intro f hf
          have : f.key ≠ v.key := by
            intro heq
            exact hnd'.1 (heq ▸ List.mem_map_of_mem CEntry.key hf)
          simpa [bne_iff_ne] using this
        simp [List.filter_cons, hxs]
      · have hxk : x.key ≠ v.key := by
          intro heq
          exact hnd'.1 (heq ▸ List.mem_map_of_mem CEntry.key hv')
        have hrec := ih hnd'.2 hv'
        have hpos : 1 ≤ xs.length := List.length_pos.mpr (List.ne_nil_of_mem hv')
        have hstep : ((x :: xs).filter (fun f => f.key != v.key)).length
            = (xs.filter (fun f => f.key != v.key)).length + 1 := by
          simp [List.filter_cons, bne_iff_ne, hxk]
        rw [hstep, hrec, List.length_cons]
        omega

/-- C5: under the LRU policy the cache never exceeds `maxCacheSize` entries,
and a capacity-exceeding write of a fresh key evicts exactly the entry with
the oldest `lastAccessedAt` before inserting. -/
theorem cache_lru_bound_and_eviction (maxSize : Nat) (c : List CEntry) (e : CEntry)
    (hmax : 1 ≤ maxSize) (hnd : (c.map CEntry.key).Nodup) (hlen : c.length ≤ maxSize) :
    (cacheSet maxSize c e).length ≤ maxSize ∧
    (e.key ∉ c.map CEntry.key → c.length = maxSize →
      ∀ m ∈ c, (∀ f ∈ c, f ≠ m → m.lastAccessedAt < f.lastAccessedAt) →
        cacheSet maxSize c e = (c.filter (fun f => f.key != m.key)) ++ [e] ∧
        m.key ∉ (cacheSet maxSize c e).map CEntry.key ∧
        (∀ f ∈ c, f.key ≠ m.key → f ∈ cacheSet maxSize c e) ∧
        e ∈ cacheSet maxSize c e ∧
        (cacheSet maxSize c e).length = maxSize) := by
  constructor
  · unfold cacheSet
    by_cases hany : c.any (fun f => f.key == e.key)
    · rw [if_pos hany]
      simpa using hlen
    · rw [if_neg hany]
      by_cases hfull : maxSize ≤ c.length
      · rw [if_pos hfull]
        have hne : c ≠ [] := by
          intro hnil
          rw [hnil] at hfull
          simp at hfull
          omega
        cases hvic : lruVictim c with
        | none =>
            cases c with
            | nil => exact absurd rfl hne
            | cons x xs => simp [lruVictim] at hvic
        | some v =>
            have hv := lruVictim_spec c v hvic
            have hflen := filter_ne_key_length v c hnd hv.1
            simp only [List.length_append, List.length_singleton, hflen]
            omega
      · rw [if_neg hfull]
        simp only [List.length_append, List.length_singleton]
        omega
  · intro hfresh hfull m hm hmin
    have hany : ¬ c.any (fun f => f.key == e.key) = true := by
      simp only [List.any_eq_true, beq_iff_eq, not_exists]
      intro f hf
      exact hfresh (hf.2 ▸ List.mem_map_of_mem CEntry.key hf.1)
    have hge : maxSize ≤ c.length := le_of_eq hfull.symm
    have hne : c ≠ [] := by
      intro hnil
      rw [hnil] at hfull
      simp at hfull
      omega
    obtain ⟨v, hvic⟩ : ∃ v, lruVictim c = some v := by
      cases c with
      | nil => exact absurd rfl hne
      | cons x xs => exact ⟨_, rfl⟩
    have hv := lruVictim_spec c v hvic
    have hveq : v = m := by
      by_contra hvm
      have h1 : m.lastAccessedAt < v.lastAccessedAt := hmin v hv.1 hvm
      have h2 : v.lastAccessedAt ≤ m.lastAccessedAt := hv.2 m hm
      omega
    have hset : cacheSet maxSize c e = (c.filter (fun f => f.key != m.key)) ++ [e] := by
      unfold cacheSet
      rw [if_neg hany, if_pos hge, hvic, hveq]
    have hmkey : m.key ∈ c.map CEntry.key := List.mem_map_of_mem CEntry.key hm
    have hek : e.key ≠ m.key := by
      intro heq
      exact hfresh (heq ▸ hmkey)
    refine ⟨hset, ?_, ?_, ?_, ?_⟩
    · rw [hset]
      simp only [List.map_append, List.mem_append, List.map_cons, List.map_nil,
        List.mem_singleton, List.mem_map]
      rintro (⟨f, hf, hfk⟩ | hke)
      · have := (List.mem_filter.mp hf).2
        rw [bne_iff_ne] at this
        exact this hfk
      · exact hek hke.symm
    · intro f hf hfk
      rw [hset]
      refine List.mem_append_left _ (List.mem_filter.mpr ⟨hf, ?_⟩)
      simpa [bne_iff_ne] using hfk
    · rw [hset]
      exact List.mem_append_right _ (List.mem_singleton.mpr rfl)
    · rw [hset]
      have hflen := filter_ne_key_length m c hnd hm
      simp only [List.length_append, List.length_singleton, hflen]
      omega

theorem cache_lru_eviction_witness :
    (cacheSet 2 [⟨1, 0, 0, 0, 5⟩, ⟨2, 0, 0, 0, 3⟩] ⟨3, 0, 0, 0, 9⟩).length ≤ 2 ∧
    (⟨2, 0, 0, 0, 3⟩ : CEntry).key ∉
      (cacheSet 2 [⟨1, 0, 0, 0, 5⟩, ⟨2, 0, 0, 0, 3⟩] ⟨3, 0, 0, 0, 9⟩).map CEntry.key :=
  ⟨(cache_lru_bound_and_eviction 2 [⟨1, 0, 0, 0, 5⟩, ⟨2, 0, 0, 0, 3⟩] ⟨3, 0, 0, 0, 9⟩
      (by norm_num) (by decide) (by decide)).1,
   ((cache_lru_bound_and_eviction 2 [⟨1, 0, 0, 0, 5⟩, ⟨2, 0, 0, 0, 3⟩] ⟨3, 0, 0, 0, 9⟩
      (by norm_num) (by decide) (by decide)).2 (by decide) (by decide)
      ⟨2, 0, 0, 0, 3⟩ (by decide) (by decide)).2.1⟩

/-- The example payload's present weight is 3.5. -/
lemma presentWeight_example : presentWeight exampleFields = 7 / 2 := by
  simp only [presentWeight, exampleFields, List.filter, fieldWeight]
  norm_num

/-- The example payload's total weight is 5.5. -/
lemma totalWeight_example : totalWeight exampleFields = 11 / 2 := by
  simp only [totalWeight, exampleFields, List.map, fieldWeight]
  norm_num

/-- The example payload scores 64. -/
lemma completenessScore_example : completenessScore exampleFields = 64 := by
  have hr : round (presentWeight exampleFields / totalWeight exampleFields * 100) = 64 := by
    rw [presentWeight_example, totalWeight_example, round_eq]
    have hq : (7 / 2 : ℚ) / (11 / 2) * 100 + 1 / 2 = 1411 / 22 := by norm_num
    rw [hq, Int.floor_eq_iff]
    constructor <;> norm_num
  unfold completenessScore
  rw [hr]
  norm_num

/-- C6 counterexample: under round-to-nearest, the weight-3.5-of-5.5 payload
scores `round(63.63…) = 64`, not 63. -/
theorem completeness_example_scores_64_not_63 :
    completenessScore exampleFields = 64 ∧ (64 : ℤ) ≠ 63 := by
  exact ⟨completenessScore_example, by decide⟩

/-- C6 (amended): the score is the weighted present/total ratio times 100,
rounded to nearest and clamped to `[0, 100]`; the payload missing one
critical field out of total weight 5.5 scores 64 (63.63… rounded to nearest)
and is classified `Low`; and every score lies in `[0, 100]`. -/
theorem completeness_scoring (fs : List (FieldClass × Bool)) :
    completenessScore exampleFields = 64 ∧
    classifySource (completenessScore exampleFields) (missingCount exampleFields) false
      = Reliability.low ∧
    completenessScore fs
      = max 0 (min 100 (round (presentWeight fs / totalWeight fs * 100))) ∧
    0 ≤ completenessScore fs ∧ completenessScore fs ≤ 100 := by
  refine ⟨completenessScore_example, ?_, rfl, ?_, ?_⟩
  · rw [completenessScore_example]
    have hmiss : missingCount exampleFields = 1 := by decide
    rw [hmiss]
    unfold classifySource
    norm_num
  · exact le_max_left 0 _
  · exact max_le (by norm_num) (min_le_left _ _)

/-- C7: on a failed fetch, with fallback enabled and any cache entry present
(expiry not consulted) the cached value is served annotated `stale = true`
and the failure is suppressed; with no entry, or fallback disabled, the
typed error propagates to the caller unchanged. -/
theorem fallback_serves_stale_else_propagates (cached : Option CEntry) (err : PErr) :
    (∀ entry, cached = some entry →
      pipelineOutcome true cached (Except.error err) = Except.ok (entry, true)) ∧
    (cached = none →
      pipelineOutcome true cached (Except.error err) = Except.error err) ∧
    (pipelineOutcome false cached (Except.error err) = Except.error err) := by
  refine ⟨?_, ?_, ?_⟩
  · intro entry hentry
    rw [hentry]
    rfl
  · intro hnone
    rw [hnone]
    rfl
  · cases cached <;> rfl

/-- `validateSymbol` passes exactly the strings of length 1..20 whose
characters all match the whitelist. -/
lemma validateSymbol_none_iff (s : List Char) :
    validateSymbol s = none ↔
      1 ≤ s.length ∧ s.length ≤ 20 ∧ ∀ c ∈ s, validSymbolChar c = true := by
  unfold validateSymbol
  split_ifs with h1 h2
  · have hno : ¬(1 ≤ s.length ∧ s.length ≤ 20 ∧ ∀ c ∈ s, validSymbolChar c = true) := by
      simp only [Bool.or_eq_true, decide_eq_true_eq] at h1
      rintro ⟨ha, hb, -⟩
      omega
    simp [hno]
  · have hlen : 1 ≤ s.length ∧ s.length ≤ 20 := by
      simp only [Bool.or_eq_true, decide_eq_true_eq, not_or] at h1
      omega
    have hne : s.isEmpty = false := by
      cases s with
      | nil => simp at hlen
      | cons x xs => rfl
    have hall : s.all validSymbolChar = false := by
      rw [Bool.not_eq_true'] at h2
      rw [hne] at h2
      simpa using h2
    have hno : ¬(1 ≤ s.length ∧ s.length ≤ 20 ∧ ∀ c ∈ s, validSymbolChar c = true) := by
      rintro ⟨-, -, hgood⟩
      rcases List.all_eq_false.mp hall with ⟨c, hc, hcf⟩
      exact hcf (hgood c hc)
    simp [hno]
  · have hlen : 1 ≤ s.length ∧ s.length ≤ 20 := by
      simp only [Bool.or_eq_true, decide_eq_true_eq, not_or] at h1
      omega
    have h2' : (!s.isEmpty && s.all validSymbolChar) = true := by
      rcases h2'' : (!s.isEmpty && s.all validSymbolChar) with _ | _
      · exact absurd (by rw [h2'']; rfl) h2
      · rfl
    have hall : ∀ c ∈ s, validSymbolChar c = true := by
      have := (Bool.and_eq_true _ _).mp h2'
      exact List.all_eq_true.mp this.2
    exact iff_of_true rfl ⟨hlen.1, hlen.2, hall⟩

/-- C8: `validateSymbols` returns without a `SecurityError` exactly when the
array is non-empty, has at most 50 pairwise-distinct elements, and every
element has length 1..20 with all characters in `A-Z 0-9 . - ^`; equivalently
it throws exactly when the array is empty, too long, has two equal elements,
or has an out-of-spec element.  (The embedding is a pure function: the static
method touches no state.) -/
theorem validateSymbols_error_characterization (ss : List (List Char)) :
    validateSymbols ss = none ↔
      (ss ≠ [] ∧ ss.length ≤ 50 ∧ ss.Nodup ∧
        ∀ s ∈ ss, 1 ≤ s.length ∧ s.length ≤ 20 ∧ ∀ c ∈ s, validSymbolChar c = true) := by
  unfold validateSymbols
  split_ifs with h1 h2 h3
  · rw [List.isEmpty_iff] at h1
    simp [h1]
  · simp only [decide_eq_true_eq] at h2
    have hno : ¬(ss ≠ [] ∧ ss.length ≤ 50 ∧ ss.Nodup ∧
        ∀ s ∈ ss, 1 ≤ s.length ∧ s.length ≤ 20 ∧ ∀ c ∈ s, validSymbolChar c = true) := by
      rintro ⟨-, hb, -, -⟩
      omega
    simp [hno]
  · have h3' : ¬ ss.Nodup := by
      rw [Bool.not_eq_true'] at h3
      simpa using h3
    have hno : ¬(ss ≠ [] ∧ ss.length ≤ 50 ∧ ss.Nodup ∧
        ∀ s ∈ ss, 1 ≤ s.length ∧ s.length ≤ 20 ∧ ∀ c ∈ s, validSymbolChar c = true) := by
      rintro ⟨-, -, hc, -⟩
      exact h3' hc
    simp [hno]
  · have h1' : ss ≠ [] := by
      intro hnil
      rw [hnil] at h1
      exact h1 rfl
    have h2' : ss.length ≤ 50 := by
      simp only [decide_eq_true_eq] at h2
      omega
    have h3' : ss.Nodup := by
      rcases hd : decide ss.Nodup with _ | _
      · exact absurd (by rw [Bool.not_eq_true', hd]) h3
      · exact of_decide_eq_true hd
    rw [List.findSome?_eq_none_iff]
    constructor
    · intro hall
      exact ⟨h1', h2', h3', fun s hs => (validateSymbol_none_iff s).mp (hall s hs)⟩
    · rintro ⟨-, -, -, hgood⟩
      intro s hs
      exact (validateSymbol_none_iff s).mpr (hgood s hs)

/-- C9 counterexample: with `maxRequests = 0` the very first call is granted
and stores `count = 1`, so more than `maxRequests` calls of the window return
`true` and the stored count exceeds `maxRequests`. -/
theorem checkRateLimit_zero_max_grants :
    (checkRateLimit none 0 0 1000).2 = true ∧
    rlCount (checkRateLimit none 0 0 1000).1 = 1 ∧
    0 < rlCount (checkRateLimit none 0 0 1000).1 := by
  refine ⟨rfl, rfl, ?_⟩
  decide

/-- Within one window (every call at or before the record's reset time), a
record with count `k` yields at most `maxRequests − k` more grants. -/
lemma runRateLimit_window_grants (maxRequests windowMs : Nat) : ∀ (ts : List Nat)
    (r : RLRecord), (∀ t ∈ ts, t ≤ r.resetTime) →
    (runRateLimit maxRequests windowMs (some r) ts).2 ≤ maxRequests - r.count := by
  intro ts
  induction ts with
  | nil => intro r _; simp [runRateLimit]
  | cons t ts ih =>
      intro r hts
      have hnr : ¬ r.resetTime < t := Nat.not_lt.mpr (hts t (List.mem_cons_self t ts))
      by_cases hsat : maxRequests ≤ r.count
      · have hstep : checkRateLimit (some r) t maxRequests windowMs = (some r, false) := by
          simp only [checkRateLimit]
          rw [if_neg hnr, if_pos hsat]
        have hrest := ih r (fun u hu => hts u (List.mem_cons_of_mem t hu))
        simp only [runRateLimit, hstep]
        simpa using hrest
      · have hlt : r.count < maxRequests := Nat.lt_of_not_le hsat
        have hstep : checkRateLimit (some r) t maxRequests windowMs
            = (some ⟨r.count + 1, r.resetTime⟩, true) := by
          simp only [checkRateLimit]
          rw [if_neg hnr, if_neg hsat]
        have hrest := ih ⟨r.count + 1, r.resetTime⟩
          (fun u hu => hts u (List.mem_cons_of_mem t hu))
        simp only [runRateLimit, hstep] at *
        simp only [if_true]
        omega

/-- C9 (amended to `maxRequests ≥ 1`): `checkRateLimit` keeps the stored
count at or below `maxRequests`; within one window a record with count `k`
yields at most `maxRequests − k` further grants; and a saturated record
denies every in-window call, leaving the state unchanged. -/
theorem checkRateLimit_count_invariant (maxRequests windowMs : Nat)
    (hmax : 1 ≤ maxRequests) :
    (∀ (rec : Option RLRecord) (now : Nat), rlCount rec ≤ maxRequests →
      rlCount (checkRateLimit rec now maxRequests windowMs).1 ≤ maxRequests) ∧
    (∀ (r : RLRecord) (ts : List Nat), (∀ t ∈ ts, t ≤ r.resetTime) →
      (runRateLimit maxRequests windowMs (some r) ts).2 ≤ maxRequests - r.count) ∧
    (∀ (r : RLRecord) (now : Nat), now ≤ r.resetTime → maxRequests ≤ r.count →
      checkRateLimit (some r) now maxRequests windowMs = (some r, false)) := by
  refine ⟨?_, ?_, ?_⟩
  · intro rec now hle
    cases rec with
    | none => simpa [checkRateLimit, rlCount] using hmax
    | some r =>
        simp only [checkRateLimit]
        by_cases hexp : r.resetTime < now
        · rw [if_pos hexp]
          simpa [rlCount] using hmax
        · rw [if_neg hexp]
          by_cases hsat : maxRequests ≤ r.count
          · rw [if_pos hsat]
            simpa [rlCount] using hle
          · rw [if_neg hsat]
            simp only [rlCount] at *
            omega
  · exact fun r ts h => runRateLimit_window_grants maxRequests windowMs ts r h
  · intro r now hin hsat
    simp only [checkRateLimit]
    rw [if_neg (Nat.not_lt.mpr hin), if_pos hsat]

theorem checkRateLimit_count_invariant_witness :
    (∀ (rec : Option RLRecord) (now : Nat), rlCount rec ≤ 2 →
      rlCount (checkRateLimit rec now 2 10).1 ≤ 2) ∧
    (∀ (r : RLRecord) (ts : List Nat), (∀ t ∈ ts, t ≤ r.resetTime) →
      (runRateLimit 2 10 (some r) ts).2 ≤ 2 - r.count) ∧
    (∀ (r : RLRecord) (now : Nat), now ≤ r.resetTime → 2 ≤ r.count →
      checkRateLimit (some r) now 2 10 = (some r, false)) :=
  checkRateLimit_count_invariant 2 10 (by norm_num)

/-- `dropWhile` yields nil or a list whose head fails the predicate. -/
lemma dropWhile_head_or_nil (p : Char → Bool) (l : List Char) :
    l.dropWhile p = [] ∨ ∃ c t, l.dropWhile p = c :: t ∧ p c = false := by
  induction l with
  | nil => left; rfl
  | cons x xs ih =>
      by_cases h : p x = true
      · rw [List.dropWhile_cons, if_pos h]; exact ih
      · right
        exact ⟨x, xs, by rw [List.dropWhile_cons, if_neg h], Bool.not_eq_true _ ▸ h⟩

/-- A list whose head (if any) fails the predicate is untouched by
`dropWhile`. -/
lemma dropWhile_eq_self_of_head (p : Char → Bool) (l : List Char)
    (h : ∀ c, l.head? = some c → p c = false) : l.dropWhile p = l := by
  cases l with
  | nil => rfl
  | cons x xs =>
      rw [List.dropWhile_cons, if_neg]
      simp [h x rfl]

/-- A non-vanishing `dropWhile` keeps the last element. -/
lemma dropWhile_getLast? (p : Char → Bool) : ∀ l : List Char,
    l.dropWhile p ≠ [] → (l.dropWhile p).getLast? = l.getLast? := by
  intro l
  induction l with
  | nil => intro h; exact absurd rfl h
  | cons x xs ih =>
      intro hne
      rw [List.dropWhile_cons] at hne ⊢
      by_cases h : p x = true
      · rw [if_pos h] at hne ⊢
        have hxs : xs ≠ [] := by
          intro hnil
          rw [hnil] at hne
          exact hne rfl
        rw [ih hne]
        cases xs with
        | nil => exact absurd rfl hxs
        | cons y ys => rw [List.getLast?_cons_cons]
      · rw [if_neg h]

/-- `dropWhile` only keeps elements of the list. -/
lemma mem_of_mem_dropWhile (p : Char → Bool) : ∀ (l : List Char) (c : Char),
    c ∈ l.dropWhile p → c ∈ l := by
  intro l
  induction l with
  | nil => intro c hc; exact hc
  | cons x xs ih =>
      intro c hc
      rw [List.dropWhile_cons] at hc
      by_cases h : p x = true
      · rw [if_pos h] at hc
        exact List.mem_cons_of_mem x (ih c hc)
      · rw [if_neg h] at hc
        exact hc

/-- Every character of the trimmed list is a character of the input. -/
lemma mem_trimChars (l : List Char) : ∀ c ∈ trimChars l, c ∈ l := by
  intro c hc
  unfold trimChars at hc
  rw [List.mem_reverse] at hc
  have h1 := mem_of_mem_dropWhile isJsWs _ c hc
  rw [List.mem_reverse] at h1
  exact mem_of_mem_dropWhile isJsWs l c h1

/-- The trimmed list's first character is not whitespace. -/
lemma trimChars_head (l : List Char) :
    ∀ c, (trimChars l).head? = some c → isJsWs c = false := by
  intro c hc
  unfold trimChars at hc
  rw [List.head?_reverse] at hc
  have hbne : (l.dropWhile isJsWs).reverse.dropWhile isJsWs ≠ [] := by
    intro hnil
    rw [hnil] at hc
    cases hc
  rw [dropWhile_getLast? isJsWs _ hbne, List.getLast?_reverse] at hc
  rcases dropWhile_head_or_nil isJsWs l with hnil | ⟨d, t, hdt, hdf⟩
  · rw [hnil] at hc
    cases hc
  · rw [hdt] at hc
    have : d = c := by
      have := hc
      simp only [List.head?_cons, Option.some.injEq] at this
      exact this
    rw [← this]
    exact hdf

/-- The trimmed list's last character is not whitespace. -/
lemma trimChars_getLast (l : List Char) :
    ∀ c, (trimChars l).getLast? = some c → isJsWs c = false := by
  intro c hc
  unfold trimChars at hc
  rw [List.getLast?_reverse] at hc
  rcases dropWhile_head_or_nil isJsWs (l.dropWhile isJsWs).reverse with hnil | ⟨d, t, hdt, hdf⟩
  · rw [hnil] at hc
    cases hc
  · rw [hdt] at hc
    have : d = c := by
      simp only [List.head?_cons, Option.some.injEq] at hc
      exact hc
    rw [← this]
    exact hdf

/-- A list with non-whitespace ends is untouched by `trimChars`. -/
lemma trimChars_eq_self (l : List Char)
    (hh : ∀ c, l.head? = some c → isJsWs c = false)
    (hl : ∀ c, l.getLast? = some c → isJsWs c = false) : trimChars l = l := by
  unfold trimChars
  rw [dropWhile_eq_self_of_head isJsWs l hh]
  have h2 : l.reverse.dropWhile isJsWs = l.reverse := by
    apply dropWhile_eq_self_of_head
    intro c hc
    rw [List.head?_reverse] at hc
    exact hl c hc
  rw [h2, List.reverse_reverse]

/-- Characters surviving sanitisation are neither angle brackets nor control
characters. -/
lemma mem_sanitizeChars (l : List Char) (c : Char) (hc : c ∈ sanitizeChars l) :
    isAngle c = false ∧ isCtrl c = false := by
  unfold sanitizeChars at hc
  have h1 := mem_trimChars _ c hc
  have h2 := List.mem_filter.mp h1
  have h3 := List.mem_filter.mp h2.1
  constructor
  · simpa using h3.2
  · simpa using h2.2

/-- Sanitising twice equals sanitising once. -/
lemma sanitizeChars_idem (l : List Char) :
    sanitizeChars (sanitizeChars l) = sanitizeChars l := by
  have hf1 : (sanitizeChars l).filter (fun c => !isAngle c) = sanitizeChars l := by
    apply List.filter_eq_self.mpr
    intro c hc
    simpa using (mem_sanitizeChars l c hc).1
  have hf2 : (sanitizeChars l).filter (fun c => !isCtrl c) = sanitizeChars l := by
    apply List.filter_eq_self.mpr
    intro c hc
    simpa using (mem_sanitizeChars l c hc).2
  show trimChars (((sanitizeChars l).filter fun c => !isAngle c).filter fun c => !isCtrl c)
      = sanitizeChars l
  rw [hf1, hf2]
  exact trimChars_eq_self (sanitizeChars l) (trimChars_head _) (trimChars_getLast _)

/-- C10: `sanitizeString` is idempotent, and its output contains no `<`, `>`
or control character (U+0000–U+001F, U+007F) and has no leading or trailing
whitespace. -/
theorem sanitizeString_idempotent_and_clean (s : String) :
    sanitizeString (sanitizeString s) = sanitizeString s ∧
    (∀ c ∈ (sanitizeString s).data, c ≠ '<' ∧ c ≠ '>' ∧ 0x1F < c.toNat ∧ c.toNat ≠ 0x7F) ∧
    (∀ c, (sanitizeString s).data.head? = some c → isJsWs c = false) ∧
    (∀ c, (sanitizeString s).data.getLast? = some c → isJsWs c = false) := by
  refine ⟨?_, ?_, ?_, ?_⟩
  · exact congrArg String.mk (sanitizeChars_idem s.data)
  · intro c hc
    have h := mem_sanitizeChars s.data c hc
    have ha := h.1
    have hx := h.2
    simp only [isAngle, Bool.or_eq_false_iff, beq_eq_false_iff_ne, ne_eq] at ha
    simp only [isCtrl, Bool.or_eq_false_iff, decide_eq_false_iff_not, Nat.not_le] at hx
    exact ⟨ha.1, ha.2, hx.1, hx.2⟩
  · exact trimChars_head _
  · exact trimChars_getLast _

end YF
